import Mathlib

/-!
Verification of the greedy message-batching loop `Sender::send_payloads`
from `src/main.rs` of the `small-opt-challenge` repository.

The batcher consumes an iterator of payload references and groups them into
messages whose total byte length stays strictly below `MAX_MSG_SIZE`,
invoking `send_msg` once per completed group.  The outer loop peeks the
iterator; the inner loop (labelled `'msg_growing` in the source) grows the
current message while `msg_size + next_payload.len() < MAX_MSG_SIZE`,
consuming a payload only when it fits.

Embedding choices:
* a payload (`bytes::Bytes`) is a list of bytes, modelled as `List Nat`;
  the batcher only ever inspects its length and moves references around;
* the lazy iterator is a `List Payload`; `peek` is pattern matching on the
  head, `next` consumes the head;
* the outer `while` loop may not terminate (an oversized payload is peeked
  forever), so it is embedded fuel-indexed: `sendLoop fuel b ps` runs at most
  `fuel` iterations of the outer loop and returns the list of messages passed
  to `send_msg` so far, the final buffer contents, and the remaining iterator;
* `send_msg` is a no-op stub in the source, so the trace of its arguments
  (the list of emitted messages) is the observable behaviour.
-/

/-- A payload: an externally owned, immutable byte sequence (`bytes::Bytes`).
Only its identity and its length matter to the batcher. -/
abbrev Payload := List Nat

/-- `const MAX_MSG_SIZE: usize = 1400;` (src/main.rs:11). -/
def MAX_MSG_SIZE : Nat := 1400

/-- Total byte length of the payload references collected in one message:
`sum(len(p) for p in message)`. -/
def sumLen (m : List Payload) : Nat := (m.map List.length).sum

@[simp] lemma sumLen_nil : sumLen [] = 0 := rfl

@[simp] lemma sumLen_cons (p : Payload) (m : List Payload) :
    sumLen (p :: m) = p.length + sumLen m := by
  simp [sumLen]

@[simp] lemma sumLen_append (m₁ m₂ : List Payload) :
    sumLen (m₁ ++ m₂) = sumLen m₁ + sumLen m₂ := by
  simp [sumLen]

/-- `self.buffer.clear()` (src/main.rs:41,46): drop the contents, keep only
the (unobservable) backing capacity. -/
def clearBuffer (_b : List Payload) : List Payload := []

/-- The inner loop `'msg_growing` (src/main.rs:49-56).  State: the group
buffer `buffer`, the accumulator `msg_size`, and the remaining iterator.
While the peeked payload satisfies `msg_size + next_payload.len() <
MAX_MSG_SIZE` it is consumed and pushed onto the buffer; otherwise the loop
breaks without consuming it.  Returns the final buffer, the final
`msg_size`, and the remaining iterator. -/
def msg_growing (buffer : List Payload) (msg_size : Nat) :
    List Payload → List Payload × Nat × List Payload
  | [] => (buffer, msg_size, [])
  | p :: rest =>
    if msg_size + p.length < MAX_MSG_SIZE then
      msg_growing (buffer ++ [p]) (msg_size + p.length) rest
    else
      (buffer, msg_size, p :: rest)

/-- Pure view of the inner loop: starting from accumulator `msg_size`, the
group of payloads that `'msg_growing` consumes and the iterator it leaves
behind. -/
def takeGroup (msg_size : Nat) : List Payload → List Payload × List Payload
  | [] => ([], [])
  | p :: rest =>
    if msg_size + p.length < MAX_MSG_SIZE then
      let gr := takeGroup (msg_size + p.length) rest
      (p :: gr.1, gr.2)
    else
      ([], p :: rest)

/-- The outer `while payloads.peek().is_some()` loop (src/main.rs:45-59),
fuel-indexed because the source loop need not terminate.  Each iteration
clears the buffer, resets `msg_size` to `0`, runs the inner loop, and passes
the resulting buffer to `send_msg`.  Returns the trace of `send_msg`
arguments, the final buffer contents, and the remaining iterator. -/
def sendLoop : Nat → List Payload → List Payload →
    List (List Payload) × List Payload × List Payload
  | _, b, [] => ([], b, [])
  | 0, b, p :: rest => ([], b, p :: rest)
  | fuel + 1, b, p :: rest =>
    let inner := msg_growing (clearBuffer b) 0 (p :: rest)
    let r := sendLoop fuel inner.1 inner.2.2
    (inner.1 :: r.1, r.2)

/-- `Sender::send_payloads` (src/main.rs:40-60): clear the buffer carried
over from the previous call, then run the batching loop.  `buffer` is the
`Sender`'s group buffer as left by the previous call. -/
def send_payloads (fuel : Nat) (buffer : List Payload) (payloads : List Payload) :
    List (List Payload) × List Payload × List Payload :=
  sendLoop fuel (clearBuffer buffer) payloads

/-- The call `sender.send_payloads(ps)` terminates: some number of outer-loop
iterations exhausts the iterator. -/
def Terminates (payloads : List Payload) : Prop :=
  ∃ fuel, (send_payloads fuel [] payloads).2.2 = []

/-- The messages emitted by a terminating run of `send_payloads`: `ps.length`
outer iterations always suffice when every payload fits into an empty
message. -/
def batchMsgs (payloads : List Payload) : List (List Payload) :=
  (send_payloads payloads.length [] payloads).1

/-! ### Basic properties of the inner loop -/

/-- The buffer-and-accumulator inner loop is the pure `takeGroup` view:
it appends the taken group to the incoming buffer and adds its total
length to the incoming `msg_size`. -/
lemma msg_growing_eq (ps : List Payload) (b : List Payload) (s : Nat) :
    msg_growing b s ps =
      (b ++ (takeGroup s ps).1, s + sumLen (takeGroup s ps).1, (takeGroup s ps).2) := by
  induction ps generalizing b s with
  | nil => simp [msg_growing, takeGroup]
  | cons p rest ih =>
    by_cases h : s + p.length < MAX_MSG_SIZE
    · simp only [msg_growing, takeGroup, if_pos h]
      rw [ih]
      simp [Nat.add_assoc]
    · simp [msg_growing, takeGroup, if_neg h]

/-- The group taken and the iterator left behind concatenate back to the
input: nothing is lost, duplicated or reordered by the inner loop. -/
lemma takeGroup_append (s : Nat) (ps : List Payload) :
    (takeGroup s ps).1 ++ (takeGroup s ps).2 = ps := by
  induction ps generalizing s with
  | nil => simp [takeGroup]
  | cons p rest ih =>
    by_cases h : s + p.length < MAX_MSG_SIZE
    · simp [takeGroup, if_pos h, ih]
    · simp [takeGroup, if_neg h]

/-- Size invariant of the inner loop: if the accumulator is below the bound,
it stays below the bound after adding the whole taken group. -/
lemma takeGroup_sum (s : Nat) (ps : List Payload) (hs : s < MAX_MSG_SIZE) :
    s + sumLen (takeGroup s ps).1 < MAX_MSG_SIZE := by
  induction ps generalizing s with
  | nil => simpa [takeGroup]
  | cons p rest ih =>
    by_cases h : s + p.length < MAX_MSG_SIZE
    · have := ih (s + p.length) h
      simp only [takeGroup, if_pos h]
      simpa [Nat.add_assoc] using this
    · simpa [takeGroup, if_neg h]

/-- The iterator left by the inner loop is a suffix of the input iterator. -/
lemma takeGroup_snd_suffix (s : Nat) (ps : List Payload) :
    (takeGroup s ps).2 <:+ ps := by
  induction ps generalizing s with
  | nil => simp [takeGroup]
  | cons p rest ih =>
    by_cases h : s + p.length < MAX_MSG_SIZE
    · simp only [takeGroup, if_pos h]
      exact (ih (s + p.length)).trans (List.suffix_cons p rest)
    · simp [takeGroup, if_neg h]

/-- Monotonicity in the accumulator: a larger starting `msg_size` makes the
inner loop stop no later than a smaller one, so it leaves behind an iterator
of which the smaller run's leftover is a suffix. -/
lemma takeGroup_snd_mono (a b : Nat) (ps : List Payload) (hab : a ≤ b) :
    (takeGroup a ps).2 <:+ (takeGroup b ps).2 := by
  induction ps generalizing a b with
  | nil => simp [takeGroup]
  | cons p rest ih =>
    by_cases hb : b + p.length < MAX_MSG_SIZE
    · have ha : a + p.length < MAX_MSG_SIZE :=
        lt_of_le_of_lt (Nat.add_le_add_right hab p.length) hb
      simp only [takeGroup, if_pos ha, if_pos hb]
      exact ih (a + p.length) (b + p.length) (Nat.add_le_add_right hab p.length)
    · simp only [takeGroup, if_neg hb]
      exact takeGroup_snd_suffix a (p :: rest)

/-- Why the inner loop stopped: if a payload `q` heads the leftover iterator,
then appending `q` to the taken group would have met or exceeded the bound. -/
lemma takeGroup_stop (s : Nat) (ps : List Payload) (q : Payload) (tl : List Payload)
    (h : (takeGroup s ps).2 = q :: tl) :
    MAX_MSG_SIZE ≤ s + sumLen (takeGroup s ps).1 + q.length := by
  induction ps generalizing s with
  | nil => simp [takeGroup] at h
  | cons p rest ih =>
    by_cases hp : s + p.length < MAX_MSG_SIZE
    · simp only [takeGroup, if_pos hp] at h ⊢
      have := ih (s + p.length) h
      simpa [Nat.add_assoc] using this
    · simp only [takeGroup, if_neg hp] at h ⊢
      injection h with h1 h2
      subst h1
      simp only [sumLen_nil, Nat.add_zero]
      omega

/-- The inner loop never consumes an oversized payload: a payload whose
length meets or exceeds the bound stays in the leftover iterator. -/
lemma oversized_mem_takeGroup_snd (s : Nat) (ps : List Payload) (p : Payload)
    (hlen : MAX_MSG_SIZE ≤ p.length) (hmem : p ∈ ps) :
    p ∈ (takeGroup s ps).2 := by
  induction ps generalizing s with
  | nil => simp at hmem
  | cons q rest ih =>
    by_cases h : s + q.length < MAX_MSG_SIZE
    · simp only [takeGroup, if_pos h]
      rcases List.mem_cons.mp hmem with rfl | hmem'
      · exact absurd h (by omega)
      · exact ih (s + q.length) hmem'
    · simpa [takeGroup, if_neg h] using hmem

/-- Greedy maximality of the inner loop: any prefix of the iterator whose
total length still fits under the bound is no longer than the group the
inner loop actually takes. -/
lemma takeGroup_longest (q t : List Payload) (s : Nat)
    (hq : s + sumLen q < MAX_MSG_SIZE) :
    q.length ≤ (takeGroup s (q ++ t)).1.length := by
  induction q generalizing s with
  | nil => simp
  | cons a q' ih =>
    have ha : s + a.length < MAX_MSG_SIZE := by
      simp only [sumLen_cons] at hq; omega
    have hq' : s + a.length + sumLen q' < MAX_MSG_SIZE := by
      simp only [sumLen_cons] at hq; omega
    have := ih (s + a.length) hq'
    simp only [List.cons_append, takeGroup, if_pos ha, List.length_cons]
    simp only [List.append_eq] at this ⊢
    omega

/-- When every payload of `pre` is small and `p` is oversized, the inner
loop takes some prefix of `pre` and leaves the rest of `pre` followed by
`p :: rest`: the oversized payload is a hard barrier. -/
lemma takeGroup_oversized_split (pre rest : List Payload) (p : Payload) (s : Nat)
    (hpre : ∀ q ∈ pre, q.length < MAX_MSG_SIZE) (hp : MAX_MSG_SIZE ≤ p.length) :
    ∃ g g2, pre = g ++ g2 ∧
      takeGroup s (pre ++ p :: rest) = (g, g2 ++ p :: rest) := by
  induction pre generalizing s with
  | nil =>
    refine ⟨[], [], rfl, ?_⟩
    have hno : ¬ s + p.length < MAX_MSG_SIZE := by omega
    simp [takeGroup, hno]
  | cons q pre' ih =>
    by_cases h : s + q.length < MAX_MSG_SIZE
    · obtain ⟨g, g2, hsplit, heq⟩ := ih (s + q.length)
        (fun x hx => hpre x (List.mem_cons_of_mem q hx))
      refine ⟨q :: g, g2, by simp [hsplit], ?_⟩
      simp [takeGroup, if_pos h, heq]
    · exact ⟨[], q :: pre', rfl, by simp [takeGroup, if_neg h]⟩

/-- Sum of the lengths of the taken group and the leftover iterator. -/
lemma takeGroup_length (s : Nat) (ps : List Payload) :
    (takeGroup s ps).1.length + (takeGroup s ps).2.length = ps.length := by
  have := congrArg List.length (takeGroup_append s ps)
  simpa using this

/-- Unfolding of the inner loop when the head payload fits into an empty
message. -/
lemma takeGroup_cons_small (p : Payload) (rest : List Payload)
    (hp : p.length < MAX_MSG_SIZE) :
    takeGroup 0 (p :: rest) =
      (p :: (takeGroup p.length rest).1, (takeGroup p.length rest).2) := by
  simp [takeGroup, hp]

/-- Payloads in a suffix of a small-payload list are small. -/
lemma small_of_suffix {ps s2 : List Payload} (h : s2 <:+ ps)
    (hsmall : ∀ q ∈ ps, q.length < MAX_MSG_SIZE) :
    ∀ q ∈ s2, q.length < MAX_MSG_SIZE :=
  fun q hq => hsmall q (h.subset hq)

/-! ### Basic properties of the outer loop -/

@[simp] lemma sendLoop_nil (fuel : Nat) (b : List Payload) :
    sendLoop fuel b [] = ([], b, []) := by
  cases fuel <;> rfl

@[simp] lemma sendLoop_zero (b : List Payload) (ps : List Payload) :
    sendLoop 0 b ps = ([], b, ps) := by
  cases ps <;> rfl

/-- One iteration of the outer loop on a nonempty iterator: clear the
buffer, grow a message, send it, continue with the leftover iterator. -/
lemma sendLoop_succ_cons (fuel : Nat) (b : List Payload) (p : Payload)
    (rest : List Payload) :
    sendLoop (fuel + 1) b (p :: rest) =
      ((takeGroup 0 (p :: rest)).1 ::
        (sendLoop fuel (takeGroup 0 (p :: rest)).1 (takeGroup 0 (p :: rest)).2).1,
       (sendLoop fuel (takeGroup 0 (p :: rest)).1 (takeGroup 0 (p :: rest)).2).2) := by
  show (let inner := msg_growing (clearBuffer b) 0 (p :: rest)
        let r := sendLoop fuel inner.1 inner.2.2
        (inner.1 :: r.1, r.2)) = _
  simp [msg_growing_eq, clearBuffer]

/-- The messages emitted and the leftover iterator do not depend on the
buffer contents carried into the loop: every iteration clears the buffer
before growing a message. -/
lemma sendLoop_buffer_irrel (fuel : Nat) (b₁ b₂ ps : List Payload) :
    (sendLoop fuel b₁ ps).1 = (sendLoop fuel b₂ ps).1 ∧
    (sendLoop fuel b₁ ps).2.2 = (sendLoop fuel b₂ ps).2.2 := by
  cases fuel with
  | zero => simp
  | succ fuel =>
    cases ps with
    | nil => simp
    | cons p rest => simp [sendLoop_succ_cons]

/-- Splitting a run of the outer loop: running `k + j` iterations is
running `k` iterations and then `j` more from the reached state. -/
lemma sendLoop_add (k j : Nat) (b ps : List Payload) :
    sendLoop (k + j) b ps =
      ((sendLoop k b ps).1 ++
        (sendLoop j (sendLoop k b ps).2.1 (sendLoop k b ps).2.2).1,
       (sendLoop j (sendLoop k b ps).2.1 (sendLoop k b ps).2.2).2) := by
  induction k generalizing b ps with
  | zero => simp
  | succ k ih =>
    cases ps with
    | nil => simp
    | cons p rest =>
      have hadd : k + 1 + j = (k + j) + 1 := by omega
      rw [hadd, sendLoop_succ_cons, sendLoop_succ_cons, ih]
      simp

/-- Termination with order preservation: when every payload is strictly
below the bound, `ps.length` outer iterations suffice to exhaust the
iterator, and the emitted messages concatenate back to the input. -/
lemma sendLoop_complete (fuel : Nat) (b ps : List Payload)
    (hsmall : ∀ q ∈ ps, q.length < MAX_MSG_SIZE) (hfuel : ps.length ≤ fuel) :
    (sendLoop fuel b ps).1.flatten = ps ∧ (sendLoop fuel b ps).2.2 = [] := by
  induction fuel generalizing b ps with
  | zero =>
    have hnil : ps = [] := List.length_eq_zero.mp (Nat.le_zero.mp hfuel)
    subst hnil; simp
  | succ fuel ih =>
    cases ps with
    | nil => simp
    | cons p rest =>
      rw [sendLoop_succ_cons]
      have happ : (takeGroup 0 (p :: rest)).1 ++ (takeGroup 0 (p :: rest)).2
          = p :: rest := takeGroup_append 0 (p :: rest)
      have hp : p.length < MAX_MSG_SIZE := hsmall p (List.mem_cons_self p rest)
      have hgne : (takeGroup 0 (p :: rest)).1 ≠ [] := by
        rw [takeGroup_cons_small p rest hp]; simp
      have hlen : (takeGroup 0 (p :: rest)).1.length
          + (takeGroup 0 (p :: rest)).2.length = rest.length + 1 := by
        simpa using takeGroup_length 0 (p :: rest)
      have hgpos : 1 ≤ (takeGroup 0 (p :: rest)).1.length :=
        List.length_pos.mpr hgne
      have hfuel' : rest.length + 1 ≤ fuel + 1 := by simpa using hfuel
      have hrlen : (takeGroup 0 (p :: rest)).2.length ≤ fuel := by omega
      have hrsmall : ∀ q ∈ (takeGroup 0 (p :: rest)).2, q.length < MAX_MSG_SIZE :=
        small_of_suffix (takeGroup_snd_suffix 0 (p :: rest)) hsmall
      obtain ⟨hjoin, hrem⟩ := ih (takeGroup 0 (p :: rest)).1
        (takeGroup 0 (p :: rest)).2 hrsmall hrlen
      constructor
      · simpa [hjoin] using happ
      · simpa using hrem

/-- All work happens within the first `ps.length` iterations: extra fuel
changes nothing once the iterator is exhausted. -/
lemma sendLoop_msgs_stable (fuel : Nat) (b ps : List Payload)
    (hsmall : ∀ q ∈ ps, q.length < MAX_MSG_SIZE) (hfuel : ps.length ≤ fuel) :
    (sendLoop fuel b ps).1 = (sendLoop ps.length b ps).1 := by
  obtain ⟨_, hrem⟩ := sendLoop_complete ps.length b ps hsmall le_rfl
  have hk : fuel = ps.length + (fuel - ps.length) := by omega
  rw [hk, sendLoop_add]
  simp [hrem]

@[simp] lemma batchMsgs_nil : batchMsgs [] = [] := rfl

/-- Recursion equation for the messages of a terminating run: the first
message is the group the inner loop takes, the rest are the messages of the
leftover iterator. -/
lemma batchMsgs_cons (p : Payload) (rest : List Payload)
    (hsmall : ∀ q ∈ p :: rest, q.length < MAX_MSG_SIZE) :
    batchMsgs (p :: rest) =
      (takeGroup 0 (p :: rest)).1 :: batchMsgs (takeGroup 0 (p :: rest)).2 := by
  have hp : p.length < MAX_MSG_SIZE := hsmall p (List.mem_cons_self p rest)
  have hgne : (takeGroup 0 (p :: rest)).1 ≠ [] := by
    rw [takeGroup_cons_small p rest hp]; simp
  have hgpos : 1 ≤ (takeGroup 0 (p :: rest)).1.length :=
    List.length_pos.mpr hgne
  have hlen : (takeGroup 0 (p :: rest)).1.length
      + (takeGroup 0 (p :: rest)).2.length = rest.length + 1 := by
    simpa using takeGroup_length 0 (p :: rest)
  have hrlen : (takeGroup 0 (p :: rest)).2.length ≤ rest.length := by omega
  have hrsmall : ∀ q ∈ (takeGroup 0 (p :: rest)).2, q.length < MAX_MSG_SIZE :=
    small_of_suffix (takeGroup_snd_suffix 0 (p :: rest)) hsmall
  show (send_payloads (p :: rest).length [] (p :: rest)).1 = _
  unfold send_payloads
  simp only [clearBuffer, List.length_cons]
  rw [sendLoop_succ_cons]
  have hb := (sendLoop_buffer_irrel rest.length (takeGroup 0 (p :: rest)).1 []
    (takeGroup 0 (p :: rest)).2).1
  have hs := sendLoop_msgs_stable rest.length [] (takeGroup 0 (p :: rest)).2
    hrsmall hrlen
  show (takeGroup 0 (p :: rest)).1 ::
      (sendLoop rest.length (takeGroup 0 (p :: rest)).1 (takeGroup 0 (p :: rest)).2).1 = _
  rw [hb, hs]
  rfl

/-- An oversized payload is never consumed: it stays in the leftover
iterator after any number of outer-loop iterations, from any buffer state. -/
lemma oversized_stall (fuel : Nat) (b ps : List Payload) (p : Payload)
    (hlen : MAX_MSG_SIZE ≤ p.length) (hmem : p ∈ ps) :
    p ∈ (sendLoop fuel b ps).2.2 := by
  induction fuel generalizing b ps with
  | zero => simpa using hmem
  | succ fuel ih =>
    cases ps with
    | nil => simp at hmem
    | cons q rest =>
      rw [sendLoop_succ_cons]
      exact ih (takeGroup 0 (q :: rest)).1 (takeGroup 0 (q :: rest)).2
        (oversized_mem_takeGroup_snd 0 (q :: rest) p hlen hmem)

/-- Busy loop on an oversized head: every outer-loop iteration sends an
empty message and consumes nothing. -/
lemma sendLoop_oversized_head (j : Nat) (b rest : List Payload) (p : Payload)
    (hp : MAX_MSG_SIZE ≤ p.length) :
    (sendLoop j b (p :: rest)).1 = List.replicate j [] ∧
    (sendLoop j b (p :: rest)).2.2 = p :: rest := by
  induction j generalizing b with
  | zero => simp
  | succ j ih =>
    have hno : ¬ 0 + p.length < MAX_MSG_SIZE := by omega
    have hg : takeGroup 0 (p :: rest) = ([], p :: rest) := by
      simp only [takeGroup, if_neg hno]
    rw [sendLoop_succ_cons, hg]
    obtain ⟨h1, h2⟩ := ih []
    simp [h1, h2, List.replicate_succ]

/-- A suffix of the iterator needs no more messages than the full iterator:
dropping leading payloads cannot increase the number of greedy groups. -/
lemma batchMsgs_length_suffix : ∀ n ps, List.length ps ≤ n →
    (∀ q ∈ ps, q.length < MAX_MSG_SIZE) →
    ∀ s2, s2 <:+ ps → (batchMsgs s2).length ≤ (batchMsgs ps).length := by
  intro n
  induction n with
  | zero =>
    intro ps hlen _ s2 hs2
    have hps : ps = [] := List.length_eq_zero.mp (Nat.le_zero.mp hlen)
    subst hps
    have hs : s2 = [] := List.suffix_nil.mp hs2
    subst hs
    exact le_rfl
  | succ n ih =>
    intro ps hlen hsmall s2 hs2
    cases ps with
    | nil =>
      have hs : s2 = [] := List.suffix_nil.mp hs2
      subst hs; exact le_rfl
    | cons p t =>
      rcases List.suffix_cons_iff.mp hs2 with rfl | hs2'
      · exact le_rfl
      · have htlen : t.length ≤ n := by simpa using hlen
        have htsmall : ∀ q ∈ t, q.length < MAX_MSG_SIZE :=
          fun q hq => hsmall q (List.mem_cons_of_mem p hq)
        have h1 : (batchMsgs s2).length ≤ (batchMsgs t).length :=
          ih t htlen htsmall s2 hs2'
        refine h1.trans ?_
        have hp : p.length < MAX_MSG_SIZE := hsmall p (List.mem_cons_self p t)
        have hcons := batchMsgs_cons p t hsmall
        cases t with
        | nil => simp [hcons]
        | cons q t' =>
          have hcons' := batchMsgs_cons q t' htsmall
          have hr : (takeGroup 0 (p :: q :: t')).2 = (takeGroup p.length (q :: t')).2 := by
            rw [takeGroup_cons_small p (q :: t') hp]
          have hmono : (takeGroup 0 (q :: t')).2 <:+ (takeGroup p.length (q :: t')).2 :=
            takeGroup_snd_mono 0 p.length (q :: t') (Nat.zero_le _)
          have hrsub : (takeGroup p.length (q :: t')).2 <:+ (q :: t') :=
            takeGroup_snd_suffix p.length (q :: t')
          have hrlen : (takeGroup p.length (q :: t')).2.length ≤ n := by
            have hle := hrsub.length_le
            simp only [List.length_cons] at hle hlen
            omega
          have hrsmall : ∀ x ∈ (takeGroup p.length (q :: t')).2, x.length < MAX_MSG_SIZE :=
            small_of_suffix hrsub htsmall
          have h2 : (batchMsgs (takeGroup 0 (q :: t')).2).length
              ≤ (batchMsgs (takeGroup p.length (q :: t')).2).length :=
            ih (takeGroup p.length (q :: t')).2 hrlen hrsmall _ hmono
          rw [hcons, hcons', hr]
          simpa using h2

/-- Discarding the empty parts of a partition does not change its
concatenation. -/
lemma flatten_filter_ne_nil (P : List (List Payload)) :
    (P.filter fun m => !m.isEmpty).flatten = P.flatten := by
  induction P with
  | nil => rfl
  | cons m P ih =>
    by_cases hm : m = []
    · subst hm; simpa using ih
    · rw [List.filter_cons]
      simp [hm, ih]

/-- Minimality of the greedy grouping against partitions with nonempty
parts: any splitting of the input into contiguous runs, each of total
byte length strictly below the bound, has at least as many parts as the
greedy run emits messages. -/
lemma batchMsgs_min_aux : ∀ n ps, List.length ps ≤ n →
    (∀ q ∈ ps, q.length < MAX_MSG_SIZE) →
    ∀ P : List (List Payload), P.flatten = ps →
      (∀ m ∈ P, sumLen m < MAX_MSG_SIZE) → (∀ m ∈ P, m ≠ []) →
      (batchMsgs ps).length ≤ P.length := by
  intro n
  induction n with
  | zero =>
    intro ps hlen _ P _ _ _
    have hps : ps = [] := List.length_eq_zero.mp (Nat.le_zero.mp hlen)
    subst hps; simp
  | succ n ih =>
    intro ps hlen hsmall P hflat hbound hne
    cases P with
    | nil =>
      have hps : ps = [] := by simpa using hflat.symm
      subst hps; simp
    | cons m1 P' =>
      obtain ⟨a, m1', rfl⟩ :=
        List.exists_cons_of_ne_nil (hne m1 (List.mem_cons_self m1 P'))
      subst hflat
      have hps : ((a :: m1') :: P').flatten = a :: (m1' ++ P'.flatten) := by simp
      rw [hps] at hlen hsmall ⊢
      have hfit : sumLen (a :: m1') < MAX_MSG_SIZE :=
        hbound _ (List.mem_cons_self _ _)
      have haapp : a :: (m1' ++ P'.flatten) = (a :: m1') ++ P'.flatten := by simp
      have hlongest : (a :: m1').length
          ≤ (takeGroup 0 (a :: (m1' ++ P'.flatten))).1.length := by
        rw [haapp]
        exact takeGroup_longest (a :: m1') P'.flatten 0 (by omega)
      have hcons := batchMsgs_cons a (m1' ++ P'.flatten) hsmall
      have happL : (takeGroup 0 (a :: (m1' ++ P'.flatten))).1
          ++ (takeGroup 0 (a :: (m1' ++ P'.flatten))).2
          = (a :: m1') ++ P'.flatten := (takeGroup_append 0 _).trans haapp
      have hsuffix : (takeGroup 0 (a :: (m1' ++ P'.flatten))).2 <:+ P'.flatten := by
        rcases List.append_eq_append_iff.mp happL with ⟨a', ha1, ha2⟩ | ⟨c', _, hc2⟩
        · have hlen' := congrArg List.length ha1
          simp only [List.length_append] at hlen'
          have ha0 : a' = [] := List.length_eq_zero.mp (by omega)
          subst ha0
          simp only [List.nil_append] at ha2
          rw [ha2]
        · exact ⟨c', hc2.symm⟩
      have hr1small : ∀ q ∈ P'.flatten, q.length < MAX_MSG_SIZE := by
        intro q hq
        refine hsmall q ?_
        rw [haapp]
        exact List.mem_append_right _ hq
      have hstep : (batchMsgs (takeGroup 0 (a :: (m1' ++ P'.flatten))).2).length
          ≤ (batchMsgs P'.flatten).length :=
        batchMsgs_length_suffix P'.flatten.length P'.flatten le_rfl hr1small _ hsuffix
      have hr1len : P'.flatten.length ≤ n := by
        simp only [List.length_cons, List.length_append] at hlen
        omega
      have hrec : (batchMsgs P'.flatten).length ≤ P'.length :=
        ih P'.flatten hr1len hr1small P' rfl
          (fun m hm => hbound m (List.mem_cons_of_mem _ hm))
          (fun m hm => hne m (List.mem_cons_of_mem _ hm))
      rw [hcons]
      simp only [List.length_cons]
      omega

/-- Minimality against arbitrary partitions (empty parts are discarded
first, which can only shorten the partition). -/
lemma batchMsgs_min (ps : List Payload)
    (hsmall : ∀ q ∈ ps, q.length < MAX_MSG_SIZE)
    (P : List (List Payload)) (hflat : P.flatten = ps)
    (hbound : ∀ m ∈ P, sumLen m < MAX_MSG_SIZE) :
    (batchMsgs ps).length ≤ P.length := by
  have hfilter : (P.filter fun m => !m.isEmpty).flatten = ps := by
    rw [flatten_filter_ne_nil, hflat]
  have hbound' : ∀ m ∈ P.filter fun m => !m.isEmpty, sumLen m < MAX_MSG_SIZE :=
    fun m hm => hbound m (List.mem_filter.mp hm).1
  have hne' : ∀ m ∈ P.filter fun m => !m.isEmpty, m ≠ [] := by
    intro m hm
    have hb := (List.mem_filter.mp hm).2
    simpa using hb
  have h1 : (batchMsgs ps).length ≤ (P.filter fun m => !m.isEmpty).length :=
    batchMsgs_min_aux ps.length ps le_rfl hsmall _ hfilter hbound' hne'
  exact h1.trans (List.length_filter_le _ _)

/-- Greedy maximality: a flush happens only because the next payload does
not fit, so each message except the last, together with the head payload of
the following message, meets or exceeds the bound. -/
lemma batchMsgs_max_aux : ∀ n ps, List.length ps ≤ n →
    (∀ q ∈ ps, q.length < MAX_MSG_SIZE) →
    ∀ i, i + 1 < (batchMsgs ps).length →
      (batchMsgs ps).getD (i + 1) [] ≠ [] ∧
      MAX_MSG_SIZE ≤ sumLen ((batchMsgs ps).getD i [])
        + ((batchMsgs ps).getD (i + 1) []).headI.length := by
  intro n
  induction n with
  | zero =>
    intro ps hlen _ i hi
    have hps : ps = [] := List.length_eq_zero.mp (Nat.le_zero.mp hlen)
    subst hps
    simp at hi
  | succ n ih =>
    intro ps hlen hsmall i hi
    cases ps with
    | nil => simp at hi
    | cons p t =>
      have hcons := batchMsgs_cons p t hsmall
      have hrsub : (takeGroup 0 (p :: t)).2 <:+ p :: t := takeGroup_snd_suffix 0 (p :: t)
      have hrsmall := small_of_suffix hrsub hsmall
      have hp : p.length < MAX_MSG_SIZE := hsmall p (List.mem_cons_self p t)
      have hgne : (takeGroup 0 (p :: t)).1 ≠ [] := by
        rw [takeGroup_cons_small p t hp]; simp
      have hglen : 1 ≤ (takeGroup 0 (p :: t)).1.length := List.length_pos.mpr hgne
      have hlensum := takeGroup_length 0 (p :: t)
      have hrlen : (takeGroup 0 (p :: t)).2.length ≤ n := by
        simp only [List.length_cons] at hlen hlensum
        omega
      cases i with
      | zero =>
        rw [hcons] at hi ⊢
        simp only [List.length_cons] at hi
        have hrne : (takeGroup 0 (p :: t)).2 ≠ [] := by
          intro hr0
          rw [hr0] at hi
          simp at hi
        obtain ⟨q, tl, hqtl⟩ := List.exists_cons_of_ne_nil hrne
        have hq : q.length < MAX_MSG_SIZE := by
          apply hrsmall
          rw [hqtl]
          exact List.mem_cons_self q tl
        have hcons2 : batchMsgs (takeGroup 0 (p :: t)).2
            = (takeGroup 0 (q :: tl)).1 :: batchMsgs (takeGroup 0 (q :: tl)).2 := by
          rw [hqtl]
          refine batchMsgs_cons q tl ?_
          rw [← hqtl]
          exact hrsmall
        have hfirst : (takeGroup 0 (q :: tl)).1 = q :: (takeGroup q.length tl).1 := by
          rw [takeGroup_cons_small q tl hq]
        have hstop := takeGroup_stop 0 (p :: t) q tl hqtl
        constructor
        · simp [hcons2, hfirst]
        · simp only [List.getD_cons_succ, List.getD_cons_zero, hcons2, hfirst,
            List.headI]
          omega
      | succ i =>
        rw [hcons] at hi ⊢
        simp only [List.length_cons] at hi
        have hih := ih (takeGroup 0 (p :: t)).2 hrlen hrsmall i (by omega)
        simpa [List.getD_cons_succ] using hih

/-- Before the first oversized payload, batching proceeds normally: some
number of outer iterations consumes exactly the small prefix and reaches
the state where the oversized payload heads the iterator. -/
lemma sendLoop_reach_oversized : ∀ n (pre : List Payload), pre.length ≤ n →
    ∀ (rest : List Payload) (p : Payload) (b : List Payload),
    (∀ q ∈ pre, q.length < MAX_MSG_SIZE) → MAX_MSG_SIZE ≤ p.length →
    ∃ k, (sendLoop k b (pre ++ p :: rest)).1.flatten = pre ∧
      (sendLoop k b (pre ++ p :: rest)).2.2 = p :: rest := by
  intro n
  induction n with
  | zero =>
    intro pre hlen rest p b _ _
    have hpre : pre = [] := List.length_eq_zero.mp (Nat.le_zero.mp hlen)
    subst hpre
    exact ⟨0, by simp⟩
  | succ n ih =>
    intro pre hlen rest p b hpre hp
    cases pre with
    | nil => exact ⟨0, by simp⟩
    | cons q pre' =>
      obtain ⟨g, g2, hsplit, htg⟩ := takeGroup_oversized_split (q :: pre') rest p 0 hpre hp
      have hq : q.length < MAX_MSG_SIZE := hpre q (List.mem_cons_self q pre')
      have htg' : takeGroup 0 (q :: (pre' ++ p :: rest)) = (g, g2 ++ p :: rest) := htg
      have hgval : (takeGroup 0 (q :: (pre' ++ p :: rest))).1
          = q :: (takeGroup q.length (pre' ++ p :: rest)).1 := by
        rw [takeGroup_cons_small q _ hq]
      have hgcons : g = q :: (takeGroup q.length (pre' ++ p :: rest)).1 := by
        rw [← hgval, htg']
      have hsplitlen := congrArg List.length hsplit
      have hg2len : g2.length ≤ n := by
        simp only [List.length_cons, List.length_append, hgcons] at hsplitlen hlen
        omega
      have hg2small : ∀ x ∈ g2, x.length < MAX_MSG_SIZE := by
        intro x hx
        refine hpre x ?_
        rw [hsplit]
        exact List.mem_append_right _ hx
      obtain ⟨k, hk1, hk2⟩ := ih g2 hg2len rest p g hg2small hp
      refine ⟨k + 1, ?_, ?_⟩
      · rw [List.cons_append, sendLoop_succ_cons, htg']
        simp only [List.flatten_cons, hk1]
        exact hsplit.symm
      · rw [List.cons_append, sendLoop_succ_cons, htg']
        exact hk2

/-- Every message emitted by the loop respects the size bound. -/
lemma sendLoop_msg_small (fuel : Nat) (b ps : List Payload) (m : List Payload)
    (hm : m ∈ (sendLoop fuel b ps).1) : sumLen m < MAX_MSG_SIZE := by
  induction fuel generalizing b ps with
  | zero => simp at hm
  | succ fuel ih =>
    cases ps with
    | nil => simp at hm
    | cons p rest =>
      rw [sendLoop_succ_cons] at hm
      rcases List.mem_cons.mp hm with rfl | hm'
      · have h0 : (0 : Nat) < MAX_MSG_SIZE := by decide
        have := takeGroup_sum 0 (p :: rest) h0
        omega
      · exact ih _ _ hm'

/-! ### The claims -/

/-- C1: for every input sequence of payloads and every message passed to
`send_msg` during `send_payloads` — after any number of outer iterations,
hence also for every `send` of a non-terminating run — the sum of the byte
lengths of the payload references in that message is strictly less than
`MAX_MSG_SIZE = 1400`. -/
theorem spec_C1 (fuel : Nat) (b ps : List Payload) (m : List Payload)
    (hm : m ∈ (send_payloads fuel b ps).1) :
    sumLen m < MAX_MSG_SIZE :=
  sendLoop_msg_small fuel (clearBuffer b) ps m hm

/-- Witness for C1: a concrete run with a concrete emitted message. -/
theorem spec_C1_witness :
    [[0]] ∈ (send_payloads 1 [] [[0]]).1 ∧ sumLen [[0]] < MAX_MSG_SIZE :=
  ⟨by decide, spec_C1 1 [] [[0]] [[0]] (by decide)⟩

/-- C2: for every finite input in which every payload is strictly smaller
than `MAX_MSG_SIZE`, concatenating the payload references of all emitted
messages, in emission order, yields exactly the original input: no
reordering, no duplication, no loss. -/
theorem spec_C2 (ps : List Payload)
    (hsmall : ∀ p ∈ ps, p.length < MAX_MSG_SIZE) :
    (batchMsgs ps).flatten = ps :=
  (sendLoop_complete ps.length (clearBuffer []) ps hsmall le_rfl).1

/-- Witness for C2 at a concrete input. -/
theorem spec_C2_witness :
    (∀ p ∈ ([[1], [2]] : List Payload), p.length < MAX_MSG_SIZE) ∧
    (batchMsgs [[1], [2]]).flatten = [[1], [2]] :=
  ⟨by decide, spec_C2 [[1], [2]] (by decide)⟩

/-- C3: for inputs with no oversized singleton, the emitted messages form a
partition of the input into contiguous runs whose total byte lengths are
strictly below the bound, `send` firing exactly once per run, and no such
partition has fewer parts than the greedy one. -/
theorem spec_C3 (ps : List Payload)
    (hsmall : ∀ p ∈ ps, p.length < MAX_MSG_SIZE) :
    (batchMsgs ps).flatten = ps ∧
    (∀ m ∈ batchMsgs ps, sumLen m < MAX_MSG_SIZE) ∧
    ∀ P : List (List Payload), P.flatten = ps →
      (∀ m ∈ P, sumLen m < MAX_MSG_SIZE) →
      (batchMsgs ps).length ≤ P.length := by
  refine ⟨(sendLoop_complete ps.length (clearBuffer []) ps hsmall le_rfl).1, ?_, ?_⟩
  · intro m hm
    exact sendLoop_msg_small ps.length (clearBuffer []) ps m hm
  · intro P hflat hbound
    exact batchMsgs_min ps hsmall P hflat hbound

/-- Witness for C3 at a concrete input and partition bound. -/
theorem spec_C3_witness :
    (∀ p ∈ ([[3], [4]] : List Payload), p.length < MAX_MSG_SIZE) ∧
    ((batchMsgs [[3], [4]]).flatten = [[3], [4]] ∧
     (∀ m ∈ batchMsgs [[3], [4]], sumLen m < MAX_MSG_SIZE) ∧
     ∀ P : List (List Payload), P.flatten = [[3], [4]] →
       (∀ m ∈ P, sumLen m < MAX_MSG_SIZE) →
       (batchMsgs [[3], [4]]).length ≤ P.length) :=
  ⟨by decide, spec_C3 [[3], [4]] (by decide)⟩

/-- C4: for inputs with no oversized singleton, every emitted message
except possibly the last was flushed because the head payload of the next
message did not fit: the flushed message's total length plus that payload's
length meets or exceeds `MAX_MSG_SIZE`. -/
theorem spec_C4 (ps : List Payload)
    (hsmall : ∀ p ∈ ps, p.length < MAX_MSG_SIZE)
    (i : Nat) (hi : i + 1 < (batchMsgs ps).length) :
    (batchMsgs ps).getD (i + 1) [] ≠ [] ∧
    MAX_MSG_SIZE ≤ sumLen ((batchMsgs ps).getD i [])
      + ((batchMsgs ps).getD (i + 1) []).headI.length :=
  batchMsgs_max_aux ps.length ps le_rfl hsmall i hi

set_option maxRecDepth 20000 in
/-- Witness for C4: two payloads of length 1000 and 600 split into two
messages, and 1000 + 600 ≥ 1400. -/
theorem spec_C4_witness :
    (∀ p ∈ ([List.replicate 1000 0, List.replicate 600 1] : List Payload),
      p.length < MAX_MSG_SIZE) ∧
    0 + 1 < (batchMsgs [List.replicate 1000 0, List.replicate 600 1]).length ∧
    ((batchMsgs [List.replicate 1000 0, List.replicate 600 1]).getD (0 + 1) [] ≠ [] ∧
     MAX_MSG_SIZE ≤
       sumLen ((batchMsgs [List.replicate 1000 0, List.replicate 600 1]).getD 0 [])
       + ((batchMsgs [List.replicate 1000 0, List.replicate 600 1]).getD (0 + 1) []).headI.length) :=
  ⟨by decide, by decide,
    spec_C4 [List.replicate 1000 0, List.replicate 600 1] (by decide) 0 (by decide)⟩

/-- C5: an input containing a payload of length at least `MAX_MSG_SIZE`
stalls `send_payloads`: the oversized payload is never consumed — it stays
in the iterator after every number of outer iterations, whatever the
buffer state — so the call never terminates. -/
theorem spec_C5 (ps : List Payload) (p : Payload)
    (hmem : p ∈ ps) (hlen : MAX_MSG_SIZE ≤ p.length) :
    (∀ fuel b, p ∈ (send_payloads fuel b ps).2.2) ∧ ¬ Terminates ps := by
  constructor
  · intro fuel b
    exact oversized_stall fuel (clearBuffer b) ps p hlen hmem
  · rintro ⟨fuel, hterm⟩
    have h : p ∈ (send_payloads fuel [] ps).2.2 :=
      oversized_stall fuel (clearBuffer []) ps p hlen hmem
    rw [hterm] at h
    exact List.not_mem_nil _ h

/-- Witness for C5 at the concrete input `[replicate 1400 0]`. -/
theorem spec_C5_witness :
    List.replicate 1400 (0 : Nat) ∈ [List.replicate 1400 (0 : Nat)] ∧
    MAX_MSG_SIZE ≤ (List.replicate 1400 (0 : Nat)).length ∧
    ((∀ fuel b, List.replicate 1400 (0 : Nat)
        ∈ (send_payloads fuel b [List.replicate 1400 (0 : Nat)]).2.2) ∧
      ¬ Terminates [List.replicate 1400 (0 : Nat)]) :=
  ⟨List.mem_singleton.mpr rfl, by rw [List.length_replicate]; decide,
    spec_C5 [List.replicate 1400 (0 : Nat)] (List.replicate 1400 (0 : Nat))
      (List.mem_singleton.mpr rfl) (by rw [List.length_replicate]; decide)⟩

/-- C6 counterexample: the claim "`send_payloads` terminates on every
finite input" fails at the concrete input `[replicate 1400 0]`, whose
single payload has length exactly `MAX_MSG_SIZE`: no number of outer
iterations exhausts the iterator. -/
theorem spec_C6_counterexample : ¬ Terminates [List.replicate 1400 (0 : Nat)] := by
  rintro ⟨fuel, hterm⟩
  have h : List.replicate 1400 (0 : Nat)
      ∈ (send_payloads fuel [] [List.replicate 1400 (0 : Nat)]).2.2 :=
    oversized_stall fuel (clearBuffer []) _ _ (by rw [List.length_replicate]; decide)
      (List.mem_singleton.mpr rfl)
  rw [hterm] at h
  exact List.not_mem_nil _ h

/-- C6 (amended): for every finite input whose payloads are all strictly
below `MAX_MSG_SIZE`, `send_payloads` fully completes: `ps.length` outer
iterations exhaust the iterator, and any extra fuel performs no further
`send` invocation, so the call returns after finitely many sends. -/
theorem spec_C6 (ps : List Payload)
    (hsmall : ∀ p ∈ ps, p.length < MAX_MSG_SIZE) :
    Terminates ps ∧
    ∀ extra, (send_payloads (ps.length + extra) [] ps).1 = batchMsgs ps := by
  constructor
  · exact ⟨ps.length, (sendLoop_complete ps.length (clearBuffer []) ps hsmall le_rfl).2⟩
  · intro extra
    have h1 := sendLoop_add ps.length extra (clearBuffer []) ps
    have h2 := (sendLoop_complete ps.length (clearBuffer []) ps hsmall le_rfl).2
    show (sendLoop (ps.length + extra) (clearBuffer []) ps).1 = _
    rw [h1, h2]
    simp [batchMsgs, send_payloads]

/-- Witness for C6 (amended) at a concrete input. -/
theorem spec_C6_witness :
    (∀ p ∈ ([[7]] : List Payload), p.length < MAX_MSG_SIZE) ∧
    (Terminates [[7]] ∧
     ∀ extra, (send_payloads (([[7]] : List Payload).length + extra) [] [[7]]).1
        = batchMsgs [[7]]) :=
  ⟨by decide, spec_C6 [[7]] (by decide)⟩

/-- C7: the whole observable outcome of `send_payloads` — emitted messages,
final buffer contents and leftover iterator — is the same whether the group
buffer starts with recycled contents `b` or freshly empty: the function
clears the buffer before batching, so recycling is unobservable. -/
theorem spec_C7 (fuel : Nat) (b ps : List Payload) :
    send_payloads fuel b ps = send_payloads fuel [] ps := rfl

/-- C8: determinism — for a fixed input and the fixed `MAX_MSG_SIZE`, two
runs emit identical message sequences and leave identical iterators, even
when the only mutable state of the sender (its recycled group buffer)
differs between the runs. -/
theorem spec_C8 (fuel : Nat) (b₁ b₂ ps : List Payload) :
    (sendLoop fuel b₁ ps).1 = (sendLoop fuel b₂ ps).1 ∧
    (sendLoop fuel b₁ ps).2.2 = (sendLoop fuel b₂ ps).2.2 ∧
    (send_payloads fuel b₁ ps).1 = (send_payloads fuel b₂ ps).1 :=
  ⟨(sendLoop_buffer_irrel fuel b₁ b₂ ps).1,
   (sendLoop_buffer_irrel fuel b₁ b₂ ps).2, rfl⟩

/-- C9: a zero-length payload peeked while the accumulator is below the
bound (as it always is in reachable states) is consumed and appended to
the message being grown, contributing zero to `msg_size`: it never
triggers a flush by itself and is grouped like any other payload. -/
theorem spec_C9 (b : List Payload) (s : Nat) (q : Payload) (rest : List Payload)
    (hs : s < MAX_MSG_SIZE) (hq : q.length = 0) :
    msg_growing b s (q :: rest) = msg_growing (b ++ [q]) s rest := by
  have hfit : s + q.length < MAX_MSG_SIZE := by omega
  show (if s + q.length < MAX_MSG_SIZE then
          msg_growing (b ++ [q]) (s + q.length) rest
        else (b, s, q :: rest)) = _
  rw [if_pos hfit, hq, Nat.add_zero]

/-- Witness for C9: the empty payload appended to a message in progress. -/
theorem spec_C9_witness :
    0 < MAX_MSG_SIZE ∧ List.length ([] : Payload) = 0 ∧
    msg_growing [] 0 (([] : Payload) :: [[1]]) = msg_growing ([] ++ [([] : Payload)]) 0 [[1]] :=
  ⟨by decide, rfl, spec_C9 [] 0 [] [[1]] (by decide) rfl⟩

/-- C10: for an input `pre ++ p :: rest` whose first oversized payload is
`p`, some number `k` of outer iterations batches and sends exactly the
small prefix `pre` and reaches the state where `p` heads the iterator;
from that point on, every further iteration invokes `send_msg` with an
empty message (zero payload references) and consumes nothing. -/
theorem spec_C10 (pre rest : List Payload) (p : Payload) (b : List Payload)
    (hpre : ∀ q ∈ pre, q.length < MAX_MSG_SIZE) (hp : MAX_MSG_SIZE ≤ p.length) :
    ∃ k, (send_payloads k b (pre ++ p :: rest)).1.flatten = pre ∧
      (send_payloads k b (pre ++ p :: rest)).2.2 = p :: rest ∧
      ∀ j, (send_payloads (k + j) b (pre ++ p :: rest)).1
          = (send_payloads k b (pre ++ p :: rest)).1 ++ List.replicate j [] ∧
        (send_payloads (k + j) b (pre ++ p :: rest)).2.2 = p :: rest := by
  obtain ⟨k, hk1, hk2⟩ :=
    sendLoop_reach_oversized pre.length pre le_rfl rest p (clearBuffer b) hpre hp
  refine ⟨k, hk1, hk2, ?_⟩
  intro j
  have hadd := sendLoop_add k j (clearBuffer b) (pre ++ p :: rest)
  have hover := sendLoop_oversized_head j
    (sendLoop k (clearBuffer b) (pre ++ p :: rest)).2.1 rest p hp
  constructor
  · show (sendLoop (k + j) (clearBuffer b) (pre ++ p :: rest)).1
        = (sendLoop k (clearBuffer b) (pre ++ p :: rest)).1 ++ List.replicate j []
    rw [hadd, hk2, hover.1]
  · show (sendLoop (k + j) (clearBuffer b) (pre ++ p :: rest)).2.2 = p :: rest
    rw [hadd, hk2, hover.2]

set_option maxRecDepth 20000 in
/-- Witness for C10: prefix `[[5]]` before an oversized payload. -/
theorem spec_C10_witness :
    (∀ q ∈ ([[5]] : List Payload), q.length < MAX_MSG_SIZE) ∧
    MAX_MSG_SIZE ≤ (List.replicate 1400 (0 : Nat)).length ∧
    ∃ k, (send_payloads k [] ([[5]] ++ List.replicate 1400 (0 : Nat) :: [])).1.flatten
          = [[5]] ∧
      (send_payloads k [] ([[5]] ++ List.replicate 1400 (0 : Nat) :: [])).2.2
          = List.replicate 1400 (0 : Nat) :: [] ∧
      ∀ j, (send_payloads (k + j) [] ([[5]] ++ List.replicate 1400 (0 : Nat) :: [])).1
          = (send_payloads k [] ([[5]] ++ List.replicate 1400 (0 : Nat) :: [])).1
            ++ List.replicate j [] ∧
        (send_payloads (k + j) [] ([[5]] ++ List.replicate 1400 (0 : Nat) :: [])).2.2
          = List.replicate 1400 (0 : Nat) :: [] :=
  ⟨by decide, by rw [List.length_replicate]; decide,
    spec_C10 [[5]] [] (List.replicate 1400 (0 : Nat)) []
      (by decide) (by rw [List.length_replicate]; decide)⟩
